import Mathlib

/-!
# Verification of the Stack language interpreter core

Shallow embedding of the interpreter found in `src/main.rs` and
`src/functions.rs` of the stack-lang repository: the value model (`Type`),
the coercions (`get_string`, `get_number`, `get_bool`, `get_list`), the
bracket-aware lexer (`analyze_syntax`), the operand stack (`pop_stack`), the
flat variable environment, the token classifier (`evaluate_program`) and the
pure fragment of the command dispatcher (`execute_command`).

Modelling conventions:
* The `Number` payload (an IEEE-754 double in the source) is modelled as
  `Int`.  Every claim under verification exercises only integral values, on
  which Rust's `f64` arithmetic, display (`13.0.to_string() = "13"`) and
  `usize` casts (truncation, saturation of negatives at `0`) agree with the
  integer model.  Commands whose behaviour is inherently `f64`-specific
  (`div`, `sin`, ...) are left outside the pure embedding.
* `HashMap<String, Type>` is modelled as an association list with upsert
  semantics (`and_modify ∨ insert`); lookups and removals are order
  independent, matching the observable behaviour of the map.  Commands that
  observe the map's iteration order (`mem`) are left unmodelled.
* Rust panics (e.g. `Vec::insert` with an index past the end,
  `step_by(0)`, `Duration::from_secs_f64` on a negative number) are
  modelled as `none`: the evaluator aborts.  Commands performing external
  effects (file system, network, audio, clipboard, randomness, wall clock,
  process control, spawning threads) are also mapped to `none`; no claim
  under verification evaluates them.
* Recursive evaluation (`eval`, `if`, `while`, list literals, the
  higher-order list commands) is bounded by an explicit fuel parameter;
  `none` also means "out of fuel".  Theorems about terminating runs hold at
  any sufficient fuel.
* Logging (`log_print`, `show_variables`) and the debug/script mode flag
  only affect diagnostic output and are dropped from the embedding.
-/

namespace StackLang

/-- The dynamic value model: `enum Type` in `src/main.rs` (lines 99-106).
`Number` carries `Int` (see the modelling conventions above), `Object`
carries the type name and the property map as an association list. -/
inductive Ty where
  | number : Int → Ty
  | string : String → Ty
  | bool : Bool → Ty
  | list : List Ty → Ty
  | object : String → List (String × Ty) → Ty
  | error : String → Ty
  deriving Repr

/-- Rust `bool::from_str`: accepts exactly `"true"` and `"false"`.
Used by `get_bool` on `Type::Error` (`e.parse().unwrap_or(false)`). -/
def parseBoolRust (s : String) : Option Bool :=
  if s = "true" then some true
  else if s = "false" then some false
  else none

/-- Value of a nonempty all-digit character list. -/
def digitsVal (l : List Char) : Nat :=
  l.foldl (fun a c => a * 10 + (c.toNat - 48)) 0

/-- Parse a character list consisting only of decimal digits (at least one). -/
def parseDigits : List Char → Option Nat
  | [] => none
  | l => if l.all Char.isDigit then some (digitsVal l) else none

/-- The integral fragment of Rust `f64::from_str`, used both by the token
classifier (`token.parse::<f64>()`) and by `get_number` on strings and
error codes.  An optional sign followed by at least one decimal digit.
(The claims under verification only ever parse such tokens; fractional,
exponent and `inf`/`nan` forms are outside the integer model, and every
token appearing in a theorem below is rejected by both parsers or accepted
by both with the same value.) -/
def parseF64 (s : String) : Option Int :=
  match s.data with
  | '-' :: rest => (parseDigits rest).map (fun n => -(n : Int))
  | '+' :: rest => (parseDigits rest).map (fun n => (n : Int))
  | l => (parseDigits l).map (fun n => (n : Int))

mutual
/-- `Type::display` (`src/main.rs` lines 111-125). -/
def display : Ty → String
  | .number n => toString n
  | .string s => "(" ++ s ++ ")"
  | .bool b => if b then "true" else "false"
  | .list l => "[" ++ String.intercalate " " (displayList l) ++ "]"
  | .error e => "error:" ++ e
  | .object name _ => "Object<" ++ name ++ ">"

/-- `display` mapped over the elements of a list value. -/
def displayList : List Ty → List String
  | [] => []
  | x :: xs => display x :: displayList xs
end

/-- `Type::get_string` (`src/main.rs` lines 128-139). -/
def getString : Ty → String
  | .string s => s
  | .number n => toString n
  | .bool b => if b then "true" else "false"
  | .list l => display (.list l)
  | .error e => "error:" ++ e
  | .object name _ => "Object<" ++ name ++ ">"

/-- `Type::get_number` (`src/main.rs` lines 142-157). -/
def getNumber : Ty → Int
  | .string s => (parseF64 s).getD 0
  | .number n => n
  | .bool b => if b then 1 else 0
  | .list l => l.length
  | .error e => (parseF64 e).getD 0
  | .object _ props => props.length

/-- `Type::get_bool` (`src/main.rs` lines 160-169).  Note the `Object`
case: `object.is_empty()`, i.e. `true` iff the property map is empty. -/
def getBool : Ty → Bool
  | .string s => !s.data.isEmpty
  | .number n => decide (n ≠ 0)
  | .bool b => b
  | .list l => !l.isEmpty
  | .error e => (parseBoolRust e).getD false
  | .object _ props => props.isEmpty

/-- `Type::get_list` (`src/main.rs` lines 172-185). -/
def getList : Ty → List Ty
  | .string s => s.data.map (fun c => Ty.string (String.mk [c]))
  | .number n => [.number n]
  | .bool b => [.bool b]
  | .list l => l
  | .error e => [.error e]
  | .object _ props => props.map (·.2)

/-! ## Environment (`HashMap<String, Type>` with upsert writes) -/

/-- The variable environment: flat name-to-value mapping. -/
abbrev Env := List (String × Ty)

/-- `HashMap::get`. -/
def lookupMem : Env → String → Option Ty
  | [], _ => none
  | (k, v) :: rest, key => if k = key then some v else lookupMem rest key

/-- `entry(k).and_modify(|v| *v = val).or_insert(val)`: replace the value
if the key is present, otherwise insert the binding. -/
def upsertMem (key : String) (val : Ty) : Env → Env
  | [] => [(key, val)]
  | (k, v) :: rest =>
      if k = key then (k, val) :: rest else (k, v) :: upsertMem key val rest

/-- `HashMap::remove`. -/
def removeMem (key : String) (m : Env) : Env :=
  m.filter (fun p => p.1 ≠ key)

/-! ## Interpreter state and the operand stack -/

/-- `struct Executor` (`src/main.rs` lines 190-194) minus the mode flag,
which only gates diagnostic output.  The stack is a `Vec`: the top of the
stack is the LAST element of the list, matching `Vec::push`/`Vec::pop`. -/
structure Executor where
  stack : List Ty
  memory : Env
  deriving Repr

/-- `Vec::push` onto the operand stack. -/
def pushStack (st : Executor) (v : Ty) : Executor :=
  { st with stack := st.stack ++ [v] }

/-- `Executor::pop_stack` (`src/main.rs` lines 1300-1310): pop the top of
the stack; on an empty stack log a diagnostic and return the default value
`String("")` without changing the state. -/
def popStack (st : Executor) : Ty × Executor :=
  match st.stack.getLast? with
  | some v => (v, { st with stack := st.stack.dropLast })
  | none => (.string "", st)

/-- Pop `n` values, returned in pop order (top first): the drain loop of
the list-literal branch of `evaluate_program`. -/
def popN : Nat → Executor → List Ty × Executor
  | 0, st => ([], st)
  | n + 1, st =>
      let (v, st1) := popStack st
      let (vs, st2) := popN n st1
      (v :: vs, st2)

/-! ## Lexer (`Executor::analyze_syntax`, `src/main.rs` lines 241-293) -/

/-- Lexer state: the emitted tokens, the accumulating buffer, the string
nesting counter (`in_brackets`), the list nesting counter
(`in_parentheses`) and the comment flag (`in_hash`).  The counters are
`Int`: the source decrements them unconditionally, so they can go
negative on unbalanced input. -/
structure LexState where
  tokens : List String
  buffer : String
  inBrackets : Int
  inParens : Int
  inHash : Bool
  deriving Repr

/-- One character of `analyze_syntax`'s `for c in code.chars()` loop,
with the source's match arms in order.  Note that `'('` and `')'` update
`in_brackets` unconditionally — also inside a `# … #` comment — and that
`'['`/`']'` are gated only on `in_brackets == 0`, not on the comment
flag; only the space separator is suppressed by `in_hash`. -/
def lexStep (st : LexState) (c : Char) : LexState :=
  if c = '(' then
    { st with inBrackets := st.inBrackets + 1, buffer := st.buffer.push '(' }
  else if c = ')' then
    { st with inBrackets := st.inBrackets - 1, buffer := st.buffer.push ')' }
  else if c = '#' then
    { st with inHash := !st.inHash, buffer := st.buffer.push '#' }
  else if c = '[' ∧ st.inBrackets = 0 then
    { st with inParens := st.inParens + 1, buffer := st.buffer.push '[' }
  else if c = ']' ∧ st.inBrackets = 0 then
    { st with inParens := st.inParens - 1, buffer := st.buffer.push ']' }
  else if c = ' ' ∧ st.inHash = false ∧ st.inParens = 0 ∧ st.inBrackets = 0 then
    if st.buffer.isEmpty then st
    else { st with tokens := st.tokens ++ [st.buffer], buffer := "" }
  else
    { st with buffer := st.buffer.push c }

/-- `Executor::analyze_syntax`: replace tabs, newlines, carriage returns
and the ideographic space by spaces, run the character loop, and flush a
nonempty trailing buffer. -/
def analyzeCode (code : String) : List String :=
  let cleaned := code.data.map
    (fun c => if c = '\n' ∨ c = '\t' ∨ c = '\r' ∨ c = '　' then ' ' else c)
  let final := cleaned.foldl lexStep ⟨[], "", 0, 0, false⟩
  if final.buffer.isEmpty then final.tokens
  else final.tokens ++ [final.buffer]

/-! ## Small string helpers used by the evaluator -/

/-- `l` begins with `p` (Rust `str::starts_with`, on character lists). -/
def hasPfx : List Char → List Char → Bool
  | [], _ => true
  | _ :: _, [] => false
  | p :: ps, c :: cs => p = c && hasPfx ps cs

/-- Worker for `stripErrOcc`, structurally recursive on a length bound so
that it reduces definitionally. -/
def stripGo : Nat → List Char → List Char
  | 0, _ => []
  | _ + 1, [] => []
  | n + 1, c :: rest =>
      if hasPfx "error:".data (c :: rest) then
        stripGo n ((c :: rest).drop 6)
      else
        c :: stripGo n rest

/-- Rust `str::replace(pat, "")` for the fixed nonempty pattern
`"error:"`: remove every occurrence, scanning left to right without
overlap. -/
def stripErrOcc (l : List Char) : List Char :=
  stripGo l.length l

/-- Lexicographic order on character lists by code point, i.e. the order
`Ord`/`sort` uses on Rust `String`s (UTF-8 byte order coincides with code
point order). -/
def charListLe : List Char → List Char → Bool
  | [], _ => true
  | _ :: _, [] => false
  | a :: as, b :: bs =>
      if a < b then true
      else if b < a then false
      else charListLe as bs

/-- Insert a string into a lexicographically sorted list of strings. -/
def insertSorted (s : String) : List String → List String
  | [] => [s]
  | t :: ts => if charListLe s.data t.data then s :: t :: ts else t :: insertSorted s ts

/-- Stable lexicographic sort of a list of strings: the model of
`Vec::<String>::sort`.  (`Vec::sort` is a stable sort; on strings equal
keys are identical values, so every correct sort produces this output.) -/
def sortStrings : List String → List String
  | [] => []
  | s :: ss => insertSorted s (sortStrings ss)

/-- The last character of the nonempty list `c :: rest`, i.e. the source's
`chars[chars.len() - 1]`. -/
def lastChar : Char → List Char → Char
  | c, [] => c
  | _, d :: rest => lastChar d rest

/-- Rust `str::repeat`. -/
def strRepeat (n : Nat) (s : String) : String :=
  String.join (List.replicate n s)

/-- The iterator `(lo..hi).step_by(step)` collected into a list, for
`step > 0` (at `step = 0` the Rust iterator panics; the `range` command
arm below maps that to `none`). -/
def stepRange (lo hi step : Nat) : List Nat :=
  if _h : step = 0 ∨ hi ≤ lo then []
  else lo :: stepRange (lo + step) hi step
  termination_by hi - lo
  decreasing_by omega

/-! ## Loops of the iterating commands

Each loop takes the one-level evaluator `eval` as a parameter; the fueled
tie-back happens in `evaluateProgram` below. -/

/-- The body of the `for` arm: for each element, upsert the iteration
variable and evaluate the body. -/
def forLoop (eval : Executor → String → Option Executor) :
    List Ty → String → String → Executor → Option Executor
  | [], _, _, st => some st
  | x :: xs, v, c, st =>
      match eval { st with memory := upsertMem v x st.memory } c with
      | none => none
      | some st1 => forLoop eval xs v c st1

/-- The body of the `map` arm: like `for`, but the popped result of each
body evaluation is collected (in iteration order). -/
def mapLoop (eval : Executor → String → Option Executor) :
    List Ty → String → String → Executor → List Ty → Option (List Ty × Executor)
  | [], _, _, st, acc => some (acc, st)
  | x :: xs, v, c, st, acc =>
      match eval { st with memory := upsertMem v x st.memory } c with
      | none => none
      | some st1 =>
          let (r, st2) := popStack st1
          mapLoop eval xs v c st2 (acc ++ [r])

/-- The body of the `filter` arm: elements whose body evaluation pops a
truthy value are kept. -/
def filterLoop (eval : Executor → String → Option Executor) :
    List Ty → String → String → Executor → List Ty → Option (List Ty × Executor)
  | [], _, _, st, acc => some (acc, st)
  | x :: xs, v, c, st, acc =>
      match eval { st with memory := upsertMem v x st.memory } c with
      | none => none
      | some st1 =>
          let (r, st2) := popStack st1
          filterLoop eval xs v c st2 (if getBool r then acc ++ [x] else acc)

/-- The loop of the `reduce` arm (`src/functions.rs` lines 644-659): for
each element, upsert the current-element variable, evaluate the body, pop
the result and store it in the accumulator variable. -/
def reduceLoop (eval : Executor → String → Option Executor) :
    List Ty → String → String → String → Executor → Option Executor
  | [], _, _, _, st => some st
  | x :: xs, nowName, accName, c, st =>
      match eval { st with memory := upsertMem nowName x st.memory } c with
      | none => none
      | some st1 =>
          let (r, st2) := popStack st1
          reduceLoop eval xs nowName accName c
            { st2 with memory := upsertMem accName r st2.memory }

/-- The `while` arm's loop, bounded by its own iteration fuel: evaluate
the condition, pop a boolean, and run the body while it is true. -/
def whileLoop (eval : Executor → String → Option Executor) :
    Nat → String → String → Executor → Option Executor
  | 0, _, _, _ => none
  | n + 1, cond, code, st =>
      match eval st cond with
      | none => none
      | some st1 =>
          let (b, st2) := popStack st1
          if getBool b then
            match eval st2 code with
            | none => none
            | some st3 => whileLoop eval n cond code st3
          else some st2

/-! ## The command dispatcher

`execute_command`: identical in `src/main.rs` (lines 352-1297) and
`src/functions.rs` (lines 16-1091) on every arm that is modelled here,
with one exception noted below: `reduce` follows `src/functions.rs`
(lines 631-671), which takes an explicit initial accumulator operand as
documented; the `src/main.rs` snapshot's `reduce` is an older revision
without it.

Arms that perform external effects (I/O, network, clipboard, audio,
randomness, wall clock, threads, process exit) or whose behaviour is
`f64`- or iteration-order-specific are mapped to `none` (see the file
header); every such command name is listed explicitly so that the final
catch-all — pushing the unknown token as a string — coincides with the
source's. -/
def executeCommandAux (eval : Executor → String → Option Executor)
    (fuel : Nat) (st : Executor) (cmd : String) : Option Executor :=
  match cmd with
  -- addition
  | "add" =>
      let (b, st1) := popStack st
      let (a, st2) := popStack st1
      some (pushStack st2 (.number (getNumber a + getNumber b)))
  -- subtraction
  | "sub" =>
      let (b, st1) := popStack st
      let (a, st2) := popStack st1
      some (pushStack st2 (.number (getNumber a - getNumber b)))
  -- multiplication
  | "mul" =>
      let (b, st1) := popStack st
      let (a, st2) := popStack st1
      some (pushStack st2 (.number (getNumber a * getNumber b)))
  -- logical AND
  | "and" =>
      let (b, st1) := popStack st
      let (a, st2) := popStack st1
      some (pushStack st2 (.bool (getBool a && getBool b)))
  -- logical OR
  | "or" =>
      let (b, st1) := popStack st
      let (a, st2) := popStack st1
      some (pushStack st2 (.bool (getBool a || getBool b)))
  -- logical NOT
  | "not" =>
      let (b, st1) := popStack st
      some (pushStack st1 (.bool (!getBool b)))
  -- equality of stringified forms
  | "equal" =>
      let (b, st1) := popStack st
      let (a, st2) := popStack st1
      some (pushStack st2 (.bool (getString a = getString b)))
  -- numeric strict order
  | "less" =>
      let (b, st1) := popStack st
      let (a, st2) := popStack st1
      some (pushStack st2 (.bool (getNumber a < getNumber b)))
  -- repeat a string `count` times
  | "repeat" =>
      let (count, st1) := popStack st
      let (text, st2) := popStack st1
      some (pushStack st2 (.string (strRepeat (getNumber count).toNat (getString text))))
  -- concatenate two strings
  | "concat" =>
      let (b, st1) := popStack st
      let (a, st2) := popStack st1
      some (pushStack st2 (.string (getString a ++ getString b)))
  -- evaluate a string as a program
  | "eval" =>
      let (code, st1) := popStack st
      eval st1 (getString code)
  -- conditional branch
  | "if" =>
      let (cond, st1) := popStack st
      let (codeElse, st2) := popStack st1
      let (codeIf, st3) := popStack st2
      if getBool cond then eval st3 (getString codeIf)
      else eval st3 (getString codeElse)
  -- loop while the condition evaluates to true
  | "while" =>
      let (cond, st1) := popStack st
      let (code, st2) := popStack st1
      whileLoop eval fuel (getString cond) (getString code) st2
  -- bounds-checked list read
  | "get" =>
      let (idxv, st1) := popStack st
      let (lstv, st2) := popStack st1
      match (getList lstv).get? (getNumber idxv).toNat with
      | some x => some (pushStack st2 x)
      | none => some (pushStack st2 (.error "index-out-range"))
  -- bounds-checked list write
  | "set" =>
      let (value, st1) := popStack st
      let (idxv, st2) := popStack st1
      let (lstv, st3) := popStack st2
      let l := getList lstv
      let idx := (getNumber idxv).toNat
      if l.length > idx then some (pushStack st3 (.list (l.set idx value)))
      else some (pushStack st3 (.error "index-out-range"))
  -- bounds-checked list delete
  | "del" =>
      let (idxv, st1) := popStack st
      let (lstv, st2) := popStack st1
      let l := getList lstv
      let idx := (getNumber idxv).toNat
      if l.length > idx then some (pushStack st2 (.list (l.eraseIdx idx)))
      else some (pushStack st2 (.error "index-out-range"))
  -- push a value at the end of a list
  | "append" =>
      let (data, st1) := popStack st
      let (lstv, st2) := popStack st1
      some (pushStack st2 (.list (getList lstv ++ [data])))
  -- `Vec::insert` with NO bounds check: the source (`src/functions.rs`
  -- lines 498-504, `src/main.rs` lines 767-773) panics when the index
  -- exceeds the list length, aborting the evaluator.
  | "insert" =>
      let (data, st1) := popStack st
      let (idxv, st2) := popStack st1
      let (lstv, st3) := popStack st2
      let l := getList lstv
      let idx := (getNumber idxv).toNat
      if idx ≤ l.length then some (pushStack st3 (.list (l.insertIdx idx data)))
      else none
  -- first index whose stringification equals the target
  | "index" =>
      let (target, st1) := popStack st
      let (lstv, st2) := popStack st1
      match (getList lstv).findIdx? (fun x => getString x = getString target) with
      | some i => some (pushStack st2 (.number (i : Int)))
      | none => some (pushStack st2 (.error "item-not-found"))
  -- sort the stringified elements; `Vec::sort` on `Vec<String>` is a
  -- stable lexicographic sort, and on strings any stable sort agrees
  -- extensionally with insertion sort, which is used as the model
  | "sort" =>
      let (lstv, st1) := popStack st
      some (pushStack st1 (.list ((sortStrings ((getList lstv).map getString)).map Ty.string)))
  -- reverse a list
  | "reverse" =>
      let (lstv, st1) := popStack st
      some (pushStack st1 (.list (getList lstv).reverse))
  -- iterate a body over a list, binding the iteration variable
  | "for" =>
      let (code, st1) := popStack st
      let (vars, st2) := popStack st1
      let (lstv, st3) := popStack st2
      forLoop eval (getList lstv) (getString vars) (getString code) st3
  -- map a body over a list
  | "map" =>
      let (code, st1) := popStack st
      let (vars, st2) := popStack st1
      let (lstv, st3) := popStack st2
      match mapLoop eval (getList lstv) (getString vars) (getString code) st3 [] with
      | none => none
      | some (rs, st4) => some (pushStack st4 (.list rs))
  -- filter a list by a predicate body
  | "filter" =>
      let (code, st1) := popStack st
      let (vars, st2) := popStack st1
      let (lstv, st3) := popStack st2
      match filterLoop eval (getList lstv) (getString vars) (getString code) st3 [] with
      | none => none
      | some (rs, st4) => some (pushStack st4 (.list rs))
  -- fold a body over a list through an accumulator variable
  -- (`src/functions.rs` lines 631-671)
  | "reduce" =>
      let (code, st1) := popStack st
      let (nowv, st2) := popStack st1
      let (initVal, st3) := popStack st2
      let (accv, st4) := popStack st3
      let (lstv, st5) := popStack st4
      let accName := getString accv
      let st6 : Executor := { st5 with memory := upsertMem accName initVal st5.memory }
      match reduceLoop eval (getList lstv) (getString nowv) accName (getString code) st6 with
      | none => none
      | some st7 =>
          let r := (lookupMem st7.memory accName).getD (.string "")
          some { st7 with
                   stack := st7.stack ++ [r],
                   memory := upsertMem accName (.string "") st7.memory }
  -- numeric range; `step_by(0)` panics in Rust, aborting the evaluator
  | "range" =>
      let (stepv, st1) := popStack st
      let (maxv, st2) := popStack st1
      let (minv, st3) := popStack st2
      let step := (getNumber stepv).toNat
      if step = 0 then none
      else
        some (pushStack st3
          (.list ((stepRange (getNumber minv).toNat (getNumber maxv).toNat step).map
            (fun i => Ty.number (i : Int)))))
  -- length of a list
  | "len" =>
      let (lstv, st1) := popStack st
      some (pushStack st1 (.number ((getList lstv).length : Int)))
  -- discard the top of the stack
  | "pop" =>
      let (_, st1) := popStack st
      some st1
  -- current stack depth
  | "size-stack" =>
      some (pushStack st (.number (st.stack.length : Int)))
  -- bind a variable
  | "var" =>
      let (namev, st1) := popStack st
      let (data, st2) := popStack st1
      some { st2 with memory := upsertMem (getString namev) data st2.memory }
  -- name of a value's kind (an `Object` reports its type name)
  | "type" =>
      let (v, st1) := popStack st
      let result := match v with
        | .number _ => "number"
        | .string _ => "string"
        | .bool _ => "bool"
        | .list _ => "list"
        | .error _ => "error"
        | .object name _ => name
      some (pushStack st1 (.string result))
  -- explicit coercion
  | "cast" =>
      let (types, st1) := popStack st
      let (value, st2) := popStack st1
      match getString types with
      | "number" => some (pushStack st2 (.number (getNumber value)))
      | "string" => some (pushStack st2 (.string (getString value)))
      | "bool" => some (pushStack st2 (.bool (getBool value)))
      | "list" => some (pushStack st2 (.list (getList value)))
      | "error" => some (pushStack st2 (.error (getString value)))
      | _ => some (pushStack st2 value)
  -- remove a binding
  | "free" =>
      let (namev, st1) := popStack st
      some { st1 with memory := removeMem (getString namev) st1.memory }
  -- duplicate the top of the stack
  | "copy" =>
      let (data, st1) := popStack st
      some (pushStack (pushStack st1 data) data)
  -- exchange the top two values
  | "swap" =>
      let (b, st1) := popStack st
      let (a, st2) := popStack st1
      some (pushStack (pushStack st2 b) a)
  -- `Duration::from_secs_f64` panics on a negative argument, aborting
  -- the evaluator; on a nonnegative one the command only blocks
  | "sleep" =>
      let (v, st1) := popStack st
      if getNumber v < 0 then none else some st1
  -- external effects, `f64`-specific numerics, or iteration-order
  -- observations: outside the pure embedding (see the header); no claim
  -- under verification evaluates these
  | "div" | "mod" | "pow" | "round" | "sin" | "cos" | "tan" | "rand"
  | "shuffle" | "decode" | "encode" | "replace" | "split" | "case"
  | "join" | "find" | "regex" | "write-file" | "read-file" | "input"
  | "print" | "println" | "args-cmd" | "play-sound" | "play-file"
  | "cls" | "clear" | "thread" | "exit" | "now-time" | "instance"
  | "property" | "method" | "modify" | "all" | "request" | "open"
  | "cd" | "pwd" | "mkdir" | "rm" | "rename" | "cp" | "size-file"
  | "ls" | "folder" | "sys-info" | "set-clipboard" | "get-clipboard"
  | "get-stack" | "mem" | "only-number" => none
  -- unknown words are pushed as strings
  | _ => some (pushStack st (.string cmd))

/-! ## Token classification and program evaluation -/

/-- One token of `Executor::evaluate_program`'s loop (`src/main.rs`
lines 300-344): the classification cascade, in the source's order —
number literal, bool literal, `( … )` string, `[ … ]` list (recursive
evaluation and stack drain), `error:` literal, variable lookup,
`# … #` comment, command dispatch.  An empty token would panic on
`chars[0]` in the source and is mapped to `none` (the lexer never emits
one). -/
def evalTokenAux (eval : Executor → String → Option Executor)
    (fuel : Nat) (st : Executor) (tok : String) : Option Executor :=
  match parseF64 tok with
  | some n => some (pushStack st (.number n))
  | none =>
    if tok = "true" ∨ tok = "false" then
      some (pushStack st (.bool (tok = "true")))
    else
      match tok.data with
      | [] => none
      | c0 :: rest =>
        let cl := lastChar c0 rest
        if c0 = '(' ∧ cl = ')' then
          some (pushStack st (.string (String.mk rest.dropLast)))
        else if c0 = '[' ∧ cl = ']' then
          match eval st (String.mk rest.dropLast) with
          | none => none
          | some st1 =>
              let (vals, st2) := popN (st1.stack.length - st.stack.length) st1
              some (pushStack st2 (.list vals.reverse))
        else if hasPfx "error:".data (c0 :: rest) then
          some (pushStack st (.error (String.mk (stripErrOcc (c0 :: rest)))))
        else
          match lookupMem st.memory tok with
          | some v => some (pushStack st v)
          | none =>
            if c0 = '#' ∧ cl = '#' then some st
            else executeCommandAux eval fuel st tok

/-- The token loop of `evaluate_program`. -/
def evalTokensAux (eval : Executor → String → Option Executor)
    (fuel : Nat) (st : Executor) : List String → Option Executor
  | [] => some st
  | t :: ts =>
      match evalTokenAux eval fuel st t with
      | none => none
      | some st1 => evalTokensAux eval fuel st1 ts

/-- `Executor::evaluate_program`, bounded by fuel: lex, then classify and
execute each token.  Each level of recursive evaluation (list literals,
`eval`, `if`, the loop bodies) runs at one fuel less; `none` means the
fuel ran out or the source would have panicked. -/
def evaluateProgram : Nat → Executor → String → Option Executor
  | 0, _, _ => none
  | fuel + 1, st, code =>
      evalTokensAux (evaluateProgram fuel) fuel st (analyzeCode code)

/-- `execute_command` at a given fuel for nested evaluation. -/
def executeCommand (fuel : Nat) : Executor → String → Option Executor :=
  executeCommandAux (evaluateProgram fuel) fuel

/-- One-token evaluation at a given fuel for nested evaluation. -/
def evalToken (fuel : Nat) : Executor → String → Option Executor :=
  evalTokenAux (evaluateProgram fuel) fuel

/-! ## Spec-side formulations

The following definitions are written from the specification's words, to
be compared with the embedding above. -/

/-- The bool coercion exactly as the specification words it: non-empty
for `String`; `≠ 0` for `Number`; identity for `Bool`; non-empty for
`List`; parse of the code for `Error` with `false` on parse failure;
and — the preserved quirk — `true` iff the property map is EMPTY for
`Object`. -/
def getBoolSpec : Ty → Bool
  | .string s => decide (s ≠ "")
  | .number n => decide (n ≠ 0)
  | .bool b => b
  | .list l => match l with | [] => false | _ :: _ => true
  | .error e => (parseBoolRust e).getD false
  | .object _ props => match props with | [] => true | _ :: _ => false

/-- One iteration of `reduce` as the specification words it: bind the
current-element name to the element, evaluate the body, and assign the
popped stack top to the accumulator name. -/
def reduceSpecStep (eval : Executor → String → Option Executor)
    (nowName accName body : String) (o : Option Executor) (x : Ty) : Option Executor :=
  match o with
  | none => none
  | some st =>
      match eval { st with memory := upsertMem nowName x st.memory } body with
      | none => none
      | some st1 =>
          let (r, st2) := popStack st1
          some { st2 with memory := upsertMem accName r st2.memory }

/-- Does the text contain an occurrence of `"error:"`? -/
def hasErrOcc : List Char → Bool
  | [] => false
  | c :: rest => hasPfx "error:".data (c :: rest) || hasErrOcc rest

/-! ## Basic lemmas about the embedding -/

/-- Two strings with different head characters differ. -/
theorem neOfHead (c1 c2 : Char) (l1 l2 : List Char) (h : c1 ≠ c2) :
    String.mk (c1 :: l1) ≠ String.mk (c2 :: l2) := by
  intro h2
  have h3 : c1 :: l1 = c2 :: l2 := congrArg String.data h2
  injection h3 with h4 _
  exact h h4

/-- `parseDigits` rejects any text whose first character is not a digit. -/
theorem parseDigits_not_digit (c : Char) (l : List Char) (h : c.isDigit = false) :
    parseDigits (c :: l) = none := by
  simp [parseDigits, h]

/-- `parseF64` rejects any token whose first character is neither a sign
nor a digit. -/
theorem parseF64_head (c : Char) (l : List Char) (h1 : c ≠ '-') (h2 : c ≠ '+')
    (h3 : c.isDigit = false) : parseF64 (String.mk (c :: l)) = none := by
  unfold parseF64
  split
  · rename_i heq; injection heq with ha _; exact absurd ha h1
  · rename_i heq; injection heq with ha _; exact absurd ha h2
  · simp [show (String.mk (c :: l)).data = c :: l from rfl, parseDigits_not_digit c l h3]

/-- Popping a stack with top `a` yields `a` and drops it. -/
theorem popStack_concat (l : List Ty) (m : Env) (a : Ty) :
    popStack ⟨l ++ [a], m⟩ = (a, ⟨l, m⟩) := by
  simp [popStack, List.getLast?_concat, List.dropLast_concat]

/-- Popping the empty stack yields the default `String("")` and leaves
the state unchanged. -/
theorem popStack_nil (m : Env) : popStack ⟨[], m⟩ = (.string "", ⟨[], m⟩) := rfl

/-- Popping never touches the environment. -/
theorem popStack_memory (st : Executor) : (popStack st).2.memory = st.memory := by
  unfold popStack
  cases st.stack.getLast? <;> rfl

/-- The drain loop of the list-literal branch: popping everything above
height `k` returns those values in pop order (top first) and truncates
the stack to its first `k` values. -/
theorem popN_drain : ∀ (l : List Ty) (m : Env) (k : Nat),
    popN (l.length - k) ⟨l, m⟩ = ((l.drop k).reverse, ⟨l.take k, m⟩) := by
  intro l
  induction l using List.reverseRecOn with
  | nil => intro m k; simp [popN]
  | append_singleton l a ih =>
      intro m k
      rcases Nat.lt_or_ge l.length k with h | h
      · have h1 : (l ++ [a]).length ≤ k := by simp; omega
        have h0 : (l ++ [a]).length - k = 0 := by simp at h1 ⊢; omega
        rw [h0]
        simp [popN, List.drop_eq_nil_of_le h1, List.take_of_length_le h1]
      · have h0 : (l ++ [a]).length - k = (l.length - k) + 1 := by simp; omega
        rw [h0]
        simp only [popN, popStack_concat, ih]
        simp [List.drop_append_of_le_length h, List.take_append_of_le_length h]

/-- `chars[chars.len() - 1]` of a token ending in `a` is `a`. -/
theorem lastChar_concat (l : List Char) (c a : Char) : lastChar c (l ++ [a]) = a := by
  induction l generalizing c with
  | nil => rfl
  | cons d rest ih => simp [lastChar, ih]

/-- Looking up a key right after upserting it returns the new value. -/
theorem lookupMem_upsert_self (m : Env) (k : String) (v : Ty) :
    lookupMem (upsertMem k v m) k = some v := by
  induction m with
  | nil => simp [upsertMem, lookupMem]
  | cons p rest ih =>
      obtain ⟨k0, v0⟩ := p
      by_cases h : k0 = k <;> simp [upsertMem, lookupMem, h, ih]

/-! ## Unfolding the command dispatcher at fixed command names -/

/-- The `swap` arm. -/
theorem executeCommand_swap_eq (f : Nat) (st : Executor) :
    executeCommand f st "swap" =
      (let (b, st1) := popStack st
       let (a, st2) := popStack st1
       some (pushStack (pushStack st2 b) a)) := rfl

/-- The `concat` arm. -/
theorem executeCommand_concat_eq (f : Nat) (st : Executor) :
    executeCommand f st "concat" =
      (let (b, st1) := popStack st
       let (a, st2) := popStack st1
       some (pushStack st2 (.string (getString a ++ getString b)))) := rfl

/-- The `sort` arm. -/
theorem executeCommand_sort_eq (f : Nat) (st : Executor) :
    executeCommand f st "sort" =
      (let (lstv, st1) := popStack st
       some (pushStack st1
         (.list ((sortStrings ((getList lstv).map getString)).map Ty.string)))) := rfl

/-- The `for` arm. -/
theorem executeCommand_for_eq (f : Nat) (st : Executor) :
    executeCommand f st "for" =
      (let (code, st1) := popStack st
       let (vars, st2) := popStack st1
       let (lstv, st3) := popStack st2
       forLoop (evaluateProgram f) (getList lstv) (getString vars) (getString code) st3) := rfl

/-- The `map` arm. -/
theorem executeCommand_map_eq (f : Nat) (st : Executor) :
    executeCommand f st "map" =
      (let (code, st1) := popStack st
       let (vars, st2) := popStack st1
       let (lstv, st3) := popStack st2
       match mapLoop (evaluateProgram f) (getList lstv) (getString vars) (getString code) st3 [] with
       | none => none
       | some (rs, st4) => some (pushStack st4 (.list rs))) := rfl

/-- The `filter` arm. -/
theorem executeCommand_filter_eq (f : Nat) (st : Executor) :
    executeCommand f st "filter" =
      (let (code, st1) := popStack st
       let (vars, st2) := popStack st1
       let (lstv, st3) := popStack st2
       match filterLoop (evaluateProgram f) (getList lstv) (getString vars) (getString code) st3 [] with
       | none => none
       | some (rs, st4) => some (pushStack st4 (.list rs))) := rfl

/-- The `reduce` arm. -/
theorem executeCommand_reduce_eq (f : Nat) (st : Executor) :
    executeCommand f st "reduce" =
      (let (code, st1) := popStack st
       let (nowv, st2) := popStack st1
       let (initVal, st3) := popStack st2
       let (accv, st4) := popStack st3
       let (lstv, st5) := popStack st4
       let accName := getString accv
       let st6 : Executor := { st5 with memory := upsertMem accName initVal st5.memory }
       match reduceLoop (evaluateProgram f) (getList lstv) (getString nowv) accName
               (getString code) st6 with
       | none => none
       | some st7 =>
           let r := (lookupMem st7.memory accName).getD (.string "")
           some { st7 with
                    stack := st7.stack ++ [r],
                    memory := upsertMem accName (.string "") st7.memory }) := rfl

/-! ## The reduce loop is a fold -/

/-- A fold of `reduceSpecStep` starting from `none` stays `none`. -/
theorem foldl_reduceSpecStep_none (eval : Executor → String → Option Executor)
    (nowName accName body : String) (l : List Ty) :
    List.foldl (reduceSpecStep eval nowName accName body) none l = none := by
  induction l with
  | nil => rfl
  | cons x xs ih => simpa [reduceSpecStep] using ih

/-- The imperative loop of the `reduce` arm computes the left fold of the
spec-side step over the list. -/
theorem reduceLoop_eq_foldl (eval : Executor → String → Option Executor)
    (l : List Ty) (nowName accName c : String) (st : Executor) :
    reduceLoop eval l nowName accName c st =
      List.foldl (reduceSpecStep eval nowName accName c) (some st) l := by
  induction l generalizing st with
  | nil => rfl
  | cons x xs ih =>
      simp only [reduceLoop, List.foldl_cons, reduceSpecStep]
      cases heval : eval { st with memory := upsertMem nowName x st.memory } c with
      | none => rw [foldl_reduceSpecStep_none]
      | some st1 => exact ih _

/-! ## The iteration variable after `for`, `map` and `filter` -/

/-- If every evaluation of the body preserves the binding of the
iteration variable, the `for` loop over a nonempty list leaves the
variable bound to the last element. -/
theorem forLoop_lastBinding (eval : Executor → String → Option Executor) (v c : String)
    (hpres : ∀ s s1 : Executor, eval s c = some s1 →
        lookupMem s1.memory v = lookupMem s.memory v) :
    ∀ l : List Ty, l ≠ [] → ∀ st st1 : Executor, forLoop eval l v c st = some st1 →
      lookupMem st1.memory v = l.getLast? := by
  intro l
  induction l with
  | nil => intro h; exact absurd rfl h
  | cons x xs ih =>
      intro _ st st1 h
      unfold forLoop at h
      cases heval : eval { st with memory := upsertMem v x st.memory } c with
      | none => rw [heval] at h; cases h
      | some s1 =>
          rw [heval] at h
          cases xs with
          | nil =>
              have h2 : s1 = st1 := Option.some.inj h
              rw [← h2, hpres _ s1 heval]
              simp [lookupMem_upsert_self]
          | cons y ys =>
              rw [ih (by simp) s1 st1 h]
              simp

/-- Same for the `map` loop (which also pops the body's result; popping
never touches the environment). -/
theorem mapLoop_lastBinding (eval : Executor → String → Option Executor) (v c : String)
    (hpres : ∀ s s1 : Executor, eval s c = some s1 →
        lookupMem s1.memory v = lookupMem s.memory v) :
    ∀ l : List Ty, l ≠ [] → ∀ (st : Executor) (acc rs : List Ty) (st1 : Executor),
      mapLoop eval l v c st acc = some (rs, st1) →
      lookupMem st1.memory v = l.getLast? := by
  intro l
  induction l with
  | nil => intro h; exact absurd rfl h
  | cons x xs ih =>
      intro _ st acc rs st1 h
      unfold mapLoop at h
      cases heval : eval { st with memory := upsertMem v x st.memory } c with
      | none => rw [heval] at h; cases h
      | some s1 =>
          rw [heval] at h
          cases xs with
          | nil =>
              have h2 : (acc ++ [(popStack s1).1], (popStack s1).2) = (rs, st1) :=
                Option.some.inj h
              have h3 : (popStack s1).2 = st1 := congrArg Prod.snd h2
              rw [← h3, popStack_memory, hpres _ s1 heval]
              simp [lookupMem_upsert_self]
          | cons y ys =>
              rw [ih (by simp) (popStack s1).2 (acc ++ [(popStack s1).1]) rs st1 h]
              simp

/-- Same for the `filter` loop. -/
theorem filterLoop_lastBinding (eval : Executor → String → Option Executor) (v c : String)
    (hpres : ∀ s s1 : Executor, eval s c = some s1 →
        lookupMem s1.memory v = lookupMem s.memory v) :
    ∀ l : List Ty, l ≠ [] → ∀ (st : Executor) (acc rs : List Ty) (st1 : Executor),
      filterLoop eval l v c st acc = some (rs, st1) →
      lookupMem st1.memory v = l.getLast? := by
  intro l
  induction l with
  | nil => intro h; exact absurd rfl h
  | cons x xs ih =>
      intro _ st acc rs st1 h
      unfold filterLoop at h
      cases heval : eval { st with memory := upsertMem v x st.memory } c with
      | none => rw [heval] at h; cases h
      | some s1 =>
          rw [heval] at h
          cases xs with
          | nil =>
              have h2 : ((if getBool (popStack s1).1 then acc ++ [x] else acc),
                  (popStack s1).2) = (rs, st1) := Option.some.inj h
              have h3 : (popStack s1).2 = st1 := congrArg Prod.snd h2
              rw [← h3, popStack_memory, hpres _ s1 heval]
              simp [lookupMem_upsert_self]
          | cons y ys =>
              rw [ih (by simp) (popStack s1).2 _ rs st1 h]
              simp

/-! ## The lexicographic order used by `sort` -/

/-- `charListLe` is total. -/
theorem charListLe_total : ∀ a b : List Char, charListLe a b = true ∨ charListLe b a = true := by
  intro a
  induction a with
  | nil => intro b; left; rfl
  | cons x xs ih =>
      intro b
      cases b with
      | nil => right; rfl
      | cons y ys =>
          by_cases hxy : x < y
          · left; simp [charListLe, hxy]
          · by_cases hyx : y < x
            · right; simp [charListLe, hyx]
            · have hx : x = y := le_antisymm (not_lt.mp hyx) (not_lt.mp hxy)
              subst hx
              rcases ih ys with h | h
              · left; simp [charListLe, h]
              · right; simp [charListLe, h]

/-- `charListLe` is transitive. -/
theorem charListLe_trans : ∀ a b c : List Char,
    charListLe a b = true → charListLe b c = true → charListLe a c = true := by
  intro a
  induction a with
  | nil => intro b c _ _; rfl
  | cons x xs ih =>
      intro b c hab hbc
      cases b with
      | nil => simp [charListLe] at hab
      | cons y ys =>
          cases c with
          | nil => simp [charListLe] at hbc
          | cons z zs =>
              by_cases hxy : x < y
              · by_cases hyz : y < z
                · simp [charListLe, lt_trans hxy hyz]
                · by_cases hzy : z < y
                  · simp [charListLe, hyz, hzy] at hbc
                  · have hyEq : y = z := le_antisymm (not_lt.mp hzy) (not_lt.mp hyz)
                    subst hyEq
                    simp [charListLe, hxy]
              · by_cases hyx : y < x
                · simp [charListLe, hxy, hyx] at hab
                · have hxEq : x = y := le_antisymm (not_lt.mp hyx) (not_lt.mp hxy)
                  subst hxEq
                  simp only [charListLe] at hab
                  rw [if_neg hxy, if_neg hyx] at hab
                  by_cases hyz : x < z
                  · simp [charListLe, hyz]
                  · by_cases hzy : z < x
                    · simp [charListLe, hyz, hzy] at hbc
                    · have hzEq : x = z := le_antisymm (not_lt.mp hzy) (not_lt.mp hyz)
                      subst hzEq
                      simp only [charListLe] at hbc ⊢
                      rw [if_neg hyz, if_neg hyz] at hbc ⊢
                      exact ih ys zs hab hbc

/-- Inserting into a sorted list is a permutation of consing. -/
theorem insertSorted_perm (s : String) :
    ∀ l : List String, List.Perm (insertSorted s l) (s :: l) := by
  intro l
  induction l with
  | nil => rfl
  | cons t ts ih =>
      unfold insertSorted
      by_cases h : charListLe s.data t.data = true
      · rw [if_pos h]
      · rw [if_neg h]
        exact (ih.cons t).trans (List.Perm.swap s t ts)

/-- `sortStrings` permutes its input. -/
theorem sortStrings_perm : ∀ l : List String, List.Perm (sortStrings l) l := by
  intro l
  induction l with
  | nil => rfl
  | cons s ss ih => exact (insertSorted_perm s (sortStrings ss)).trans (ih.cons s)

/-- Inserting into a lexicographically sorted list keeps it sorted. -/
theorem insertSorted_sorted (s : String) :
    ∀ l : List String, l.Pairwise (fun a b => charListLe a.data b.data = true) →
      (insertSorted s l).Pairwise (fun a b => charListLe a.data b.data = true) := by
  intro l
  induction l with
  | nil => intro _; simp [insertSorted]
  | cons t ts ih =>
      intro h
      rw [List.pairwise_cons] at h
      obtain ⟨ht, hts⟩ := h
      unfold insertSorted
      by_cases hle : charListLe s.data t.data = true
      · rw [if_pos hle]
        refine List.pairwise_cons.mpr ⟨?_, List.pairwise_cons.mpr ⟨ht, hts⟩⟩
        intro x hx
        rcases List.mem_cons.mp hx with rfl | hx
        · exact hle
        · exact charListLe_trans _ _ _ hle (ht x hx)
      · rw [if_neg hle]
        refine List.pairwise_cons.mpr ⟨?_, ih hts⟩
        intro x hx
        rcases List.mem_cons.mp ((insertSorted_perm s ts).mem_iff.mp hx) with hxe | hx
        · rw [hxe]
          rcases charListLe_total s.data t.data with h | h
          · exact absurd h hle
          · exact h
        · exact ht x hx

/-- The output of `sortStrings` is lexicographically sorted. -/
theorem sortStrings_sorted :
    ∀ l : List String, (sortStrings l).Pairwise (fun a b => charListLe a.data b.data = true) := by
  intro l
  induction l with
  | nil => simp [sortStrings]
  | cons s ss ih => exact insertSorted_sorted s (sortStrings ss) ih

/-! ## Removing `"error:"` occurrences -/

/-- A list is a prefix of itself followed by anything. -/
theorem hasPfx_self_append : ∀ p l : List Char, hasPfx p (p ++ l) = true := by
  intro p
  induction p with
  | nil => intro l; rfl
  | cons c cs ih => intro l; simp [hasPfx, ih]

/-- `stripGo` does not depend on the length bound once it dominates the
length of the text. -/
theorem stripGo_congr : ∀ (n m : Nat) (l : List Char),
    l.length ≤ n → l.length ≤ m → stripGo n l = stripGo m l := by
  intro n
  induction n with
  | zero =>
      intro m l hn _
      have h0 : l = [] := List.eq_nil_of_length_eq_zero (Nat.le_zero.mp hn)
      subst h0
      cases m <;> rfl
  | succ n ih =>
      intro m l hn hm
      cases l with
      | nil => cases m <;> rfl
      | cons c rest =>
          cases m with
          | zero => simp at hm
          | succ m =>
              simp only [stripGo]
              by_cases hp : hasPfx "error:".data (c :: rest) = true
              · rw [if_pos hp, if_pos hp]
                refine ih m ((c :: rest).drop 6) ?_ ?_ <;> simp at hn hm ⊢ <;> omega
              · rw [if_neg hp, if_neg hp]
                have := ih m rest (by simp at hn; omega) (by simp at hm; omega)
                rw [this]

/-- Removing occurrences from `"error:" ++ rest` removes the leading
occurrence and continues in `rest`. -/
theorem stripErr_prefix (rest : List Char) :
    stripErrOcc ("error:".data ++ rest) = stripErrOcc rest := by
  show stripGo ("error:".data ++ rest).length ("error:".data ++ rest) = _
  have hlen : ("error:".data ++ rest).length = rest.length + 6 := by simp
  rw [hlen]
  show (if hasPfx "error:".data ("error:".data ++ rest) = true then
      stripGo (rest.length + 5) (("error:".data ++ rest).drop 6)
    else _) = _
  rw [if_pos (hasPfx_self_append _ _)]
  have hdrop : ("error:".data ++ rest).drop 6 = rest := by simp
  rw [hdrop]
  exact stripGo_congr _ _ _ (by omega) (le_refl _)

/-- On text without any `"error:"` occurrence the removal is the
identity. -/
theorem stripGo_no_occ : ∀ (n : Nat) (l : List Char),
    l.length ≤ n → hasErrOcc l = false → stripGo n l = l := by
  intro n
  induction n with
  | zero =>
      intro l hn _
      have h0 : l = [] := List.eq_nil_of_length_eq_zero (Nat.le_zero.mp hn)
      subst h0; rfl
  | succ n ih =>
      intro l hn hocc
      cases l with
      | nil => rfl
      | cons c rest =>
          simp only [hasErrOcc, Bool.or_eq_false_iff] at hocc
          simp only [stripGo, hocc.1, Bool.false_eq_true, if_false]
          rw [ih rest (by simp at hn; omega) hocc.2]

/-- `stripErrOcc` is the identity on occurrence-free text. -/
theorem stripErr_no_occ (l : List Char) (h : hasErrOcc l = false) :
    stripErrOcc l = l :=
  stripGo_no_occ l.length l (le_refl _) h

/-! ## Decomposing a stack of height at least two -/

/-- A list of length at least 2 ends in two elements. -/
theorem exists_two_concat (l : List Ty) (h : 2 ≤ l.length) :
    ∃ l2 a b, l = l2 ++ [a, b] := by
  induction l using List.reverseRecOn with
  | nil => simp at h
  | append_singleton l1 b _ =>
      cases l1 using List.reverseRecOn with
      | nil => simp at h
      | append_singleton l2 a _ => exact ⟨l2, a, b, by simp⟩

/-! ## The claims -/

/-- Claim C1, refuted by the code (code bug): the totality invariant
("execute_command either pushes a result value or pushes an Error value
...; it never aborts the evaluator; in particular commands such as
insert, range, repeat and sleep complete without aborting on arbitrary
operands") is violated.  `insert` at an index past the end of the list
panics inside `Vec::insert` (no bounds check, unlike `get`/`set`/`del`),
`range` with step `0` panics inside `step_by(0)`, and `sleep` with a
negative duration panics inside `Duration::from_secs_f64`; each aborts
the evaluator (modelled as `none`) instead of pushing an Error value. -/
theorem claim_C1_totality_violated :
    evaluateProgram 2 ⟨[], []⟩ "[] 1 9 insert" = none ∧
    evaluateProgram 2 ⟨[], []⟩ "0 5 0 range" = none ∧
    evaluateProgram 2 ⟨[], []⟩ "-1 sleep" = none :=
  ⟨rfl, rfl, rfl⟩

/-- Claim C2, confirmed: a `[ … ]` token records the current stack length
L0, recursively evaluates the inner text with the same evaluator, collects
the values found at index L0 onward in their original pushed order, and
pushes them as a single List; `[1 2 3]` pushes `List [1, 2, 3]` and
`[1 2 add]` pushes `List [3]`. -/
theorem claim_C2_list_literal :
    (∀ (fuel : Nat) (st : Executor) (mid : List Char),
        evalToken fuel st (String.mk ('[' :: (mid ++ [']']))) =
          match evaluateProgram fuel st (String.mk mid) with
          | none => none
          | some st1 =>
              some ⟨st1.stack.take st.stack.length ++
                      [.list (st1.stack.drop st.stack.length)], st1.memory⟩) ∧
    evaluateProgram 2 ⟨[], []⟩ "[1 2 3]" =
      some ⟨[.list [.number 1, .number 2, .number 3]], []⟩ ∧
    evaluateProgram 2 ⟨[], []⟩ "[1 2 add]" = some ⟨[.list [.number 3]], []⟩ := by
  refine ⟨?_, rfl, rfl⟩
  intro fuel st mid
  have hne1 : String.mk ('[' :: (mid ++ [']'])) ≠ "true" :=
    neOfHead '[' 't' _ _ (by decide)
  have hne2 : String.mk ('[' :: (mid ++ [']'])) ≠ "false" :=
    neOfHead '[' 'f' _ _ (by decide)
  cases h : evaluateProgram fuel st (String.mk mid) with
  | none =>
      simp [evalToken, evalTokenAux,
        parseF64_head '[' (mid ++ [']']) (by decide) (by decide) (by decide),
        hne1, hne2, lastChar_concat, List.dropLast_concat, h]
  | some st1 =>
      obtain ⟨s1, m1⟩ := st1
      simp [evalToken, evalTokenAux,
        parseF64_head '[' (mid ++ [']']) (by decide) (by decide) (by decide),
        hne1, hne2, lastChar_concat, List.dropLast_concat, h, popN_drain, pushStack]

/-- Claim C3, confirmed (following `src/functions.rs`, whose `reduce` arm
takes the documented initial-value operand; the `src/main.rs` snapshot
carries an older `reduce` without it): `reduce` binds the accumulator
name to the initial value, then folds over the list, binding the element
name, evaluating the body and storing the popped stack top into the
accumulator; it pushes the final accumulator value, and afterwards the
accumulator variable is overwritten with the empty string. -/
theorem claim_C3_reduce :
    (∀ (fuel : Nat) (base l : List Ty) (accName : String) (initVal : Ty)
        (nowName body : String) (mem : Env),
        executeCommand fuel
            ⟨base ++ [.list l, .string accName, initVal, .string nowName, .string body], mem⟩
            "reduce" =
          match List.foldl (reduceSpecStep (evaluateProgram fuel) nowName accName body)
              (some ⟨base, upsertMem accName initVal mem⟩) l with
          | none => none
          | some st1 =>
              some ⟨st1.stack ++ [(lookupMem st1.memory accName).getD (.string "")],
                    upsertMem accName (.string "") st1.memory⟩) ∧
    (∀ (fuel : Nat) (base l : List Ty) (accName : String) (initVal : Ty)
        (nowName body : String) (mem : Env) (st2 : Executor),
        executeCommand fuel
            ⟨base ++ [.list l, .string accName, initVal, .string nowName, .string body], mem⟩
            "reduce" = some st2 →
        lookupMem st2.memory accName = some (.string "")) := by
  have hmain : ∀ (fuel : Nat) (base l : List Ty) (accName : String) (initVal : Ty)
      (nowName body : String) (mem : Env),
      executeCommand fuel
          ⟨base ++ [.list l, .string accName, initVal, .string nowName, .string body], mem⟩
          "reduce" =
        match List.foldl (reduceSpecStep (evaluateProgram fuel) nowName accName body)
            (some ⟨base, upsertMem accName initVal mem⟩) l with
        | none => none
        | some st1 =>
            some ⟨st1.stack ++ [(lookupMem st1.memory accName).getD (.string "")],
                  upsertMem accName (.string "") st1.memory⟩ := by
    intro fuel base l accName initVal nowName body mem
    rw [show base ++ [Ty.list l, Ty.string accName, initVal, Ty.string nowName, Ty.string body]
          = ((((base ++ [Ty.list l]) ++ [Ty.string accName]) ++ [initVal])
              ++ [Ty.string nowName]) ++ [Ty.string body] from by simp]
    rw [executeCommand_reduce_eq]
    simp only [popStack_concat, getString, getList]
    rw [reduceLoop_eq_foldl]
  refine ⟨hmain, ?_⟩
  intro fuel base l accName initVal nowName body mem st2 h
  rw [hmain] at h
  cases hfold : List.foldl (reduceSpecStep (evaluateProgram fuel) nowName accName body)
      (some ⟨base, upsertMem accName initVal mem⟩) l with
  | none => rw [hfold] at h; cases h
  | some st1 =>
      rw [hfold] at h
      have h2 := Option.some.inj h
      rw [← h2]
      exact lookupMem_upsert_self _ _ _

/-- Witness for claim C3 at a concrete input: reducing `[1 2 3]` with
accumulator `a`, initial value `0`, element `x` and body `a x add` leaves
the accumulator variable overwritten with the empty string. -/
theorem claim_C3_reduce_witness :
    lookupMem [("a", Ty.string ""), ("x", Ty.number 3)] "a" = some (Ty.string "") := by
  have h := claim_C3_reduce.2 1 [] [Ty.number 1, Ty.number 2, Ty.number 3] "a"
    (Ty.number 0) "x" "a x add" []
    ⟨[Ty.number 6], [("a", Ty.string ""), ("x", Ty.number 3)]⟩ rfl
  exact h

/-- Claim C4, confirmed: the bool coercion is total and matches the
claim's case analysis — non-empty for String, `≠ 0` for Number, identity
for Bool, non-empty for List, boolean parse of the code (default false)
for Error, and `true` iff the property map is EMPTY for Object. -/
theorem claim_C4_bool_coercion : ∀ v : Ty, getBool v = getBoolSpec v := by
  intro v
  cases v with
  | number n => rfl
  | bool b => rfl
  | error e => rfl
  | string s =>
      obtain ⟨d⟩ := s
      cases d with
      | nil => rfl
      | cons c cs => rfl
  | list l => cases l <;> rfl
  | object name props => cases props <;> rfl

/-- Claim C5, refuted as universally stated: popping an empty stack does
return `String("")` without aborting, but NOT every command that pops
more values than are present still completes — `range` on the empty
stack pops three defaulted empty-string operands, so its step is 0, and
it aborts in `step_by(0)` instead of completing. -/
theorem claim_C5_counterexample :
    executeCommand 0 ⟨[], []⟩ "range" = none ∧
    popStack ⟨[], []⟩ = (.string "", ⟨[], []⟩) :=
  ⟨rfl, rfl⟩

/-- Claim C5 as amended: popping an empty operand stack returns the
default value `String("")` and only emits a diagnostic — `pop_stack`
itself never aborts and never produces an Error value — and a command
that pops more values than are present receives empty-string operands
and can still complete (here `concat` on the empty stack); but this does
not extend to every command, as the counterexample's `range` shows. -/
theorem claim_C5_empty_pop :
    (∀ st : Executor, st.stack = [] →
        popStack st = (.string "", st) ∧ ∀ e, (popStack st).1 ≠ .error e) ∧
    (∀ (fuel : Nat) (mem : Env),
        executeCommand fuel ⟨[], mem⟩ "concat" = some ⟨[.string ""], mem⟩) := by
  constructor
  · intro st h
    obtain ⟨stk, mem⟩ := st
    cases h
    exact ⟨rfl, fun e he => Ty.noConfusion he⟩
  · intro fuel mem
    rfl

/-- Witness for claim C5 at the concrete empty state. -/
theorem claim_C5_empty_pop_witness :
    popStack ⟨[], []⟩ = (.string "", ⟨[], []⟩) ∧
    executeCommand 0 ⟨[], []⟩ "concat" = some ⟨[.string ""], []⟩ :=
  ⟨(claim_C5_empty_pop.1 ⟨[], []⟩ rfl).1, claim_C5_empty_pop.2 0 []⟩

/-- Claim C6, refuted: brackets are NOT inert inside a `# … #` comment.
A `'('` consumed in comment mode still increments the string-nesting
counter (the `'('` match arm is not gated on `in_hash`), and the
unmatched bracket changes how the text after the comment is split: with
the bracket, `# ( # a b` lexes as ONE token, while the same text with a
non-bracket character in the comment, `# . # a b`, lexes as three. -/
theorem claim_C6_counterexample :
    (lexStep ⟨[], "", 0, 0, true⟩ '(').inBrackets = 1 ∧
    ((⟨[], "", 0, 0, true⟩ : LexState).inBrackets = 0) ∧
    analyzeCode "# ( # a b" = ["# ( # a b"] ∧
    analyzeCode "# . # a b" = ["# . #", "a", "b"] :=
  ⟨rfl, rfl, rfl, rfl⟩

/-- Claim C6 as amended: while the lexer is inside a `# … #` comment,
only the space separator is suppressed; `(` and `)` still update the
string-nesting counter unconditionally, and `[` and `]` still update the
list-nesting counter whenever the string counter is zero, so a comment
containing an unmatched bracket does affect how the following text is
split into tokens. -/
theorem claim_C6_amended :
    ∀ st : LexState, st.inHash = true →
      (lexStep st '(').inBrackets = st.inBrackets + 1 ∧
      (lexStep st ')').inBrackets = st.inBrackets - 1 ∧
      (st.inBrackets = 0 → (lexStep st '[').inParens = st.inParens + 1) ∧
      (st.inBrackets = 0 → (lexStep st ']').inParens = st.inParens - 1) ∧
      (lexStep st ' ').tokens = st.tokens ∧
      (lexStep st ' ').buffer = st.buffer.push ' ' := by
  intro st h
  refine ⟨by simp [lexStep], by simp [lexStep], ?_, ?_, ?_, ?_⟩
  · intro h0; simp [lexStep, h0]
  · intro h0; simp [lexStep, h0]
  · simp [lexStep, h]
  · simp [lexStep, h]

/-- Witness for the amended claim C6 at a concrete comment-mode lexer
state. -/
theorem claim_C6_amended_witness :
    (lexStep ⟨[], "x", 0, 0, true⟩ '(').inBrackets = 0 + 1 ∧
    (lexStep ⟨[], "x", 0, 0, true⟩ ')').inBrackets = 0 - 1 ∧
    (lexStep ⟨[], "x", 0, 0, true⟩ '[').inParens = 0 + 1 ∧
    (lexStep ⟨[], "x", 0, 0, true⟩ ']').inParens = 0 - 1 ∧
    (lexStep ⟨[], "x", 0, 0, true⟩ ' ').tokens = [] ∧
    (lexStep ⟨[], "x", 0, 0, true⟩ ' ').buffer = "x".push ' ' := by
  have h := claim_C6_amended ⟨[], "x", 0, 0, true⟩ rfl
  exact ⟨h.1, h.2.1, h.2.2.1 rfl, h.2.2.2.1 rfl, h.2.2.2.2.1, h.2.2.2.2.2⟩

/-- Claim C7, refuted: the error-literal branch runs
`token.replace("error:", "")`, which removes EVERY occurrence of
`error:`, not only the single leading prefix: the token
`error:aerror:b` pushes `Error "ab"`, not `Error "aerror:b"` as the
claim requires. -/
theorem claim_C7_counterexample :
    evaluateProgram 1 ⟨[], []⟩ "error:aerror:b" = some ⟨[.error "ab"], []⟩ ∧
    evaluateProgram 1 ⟨[], []⟩ "error:aerror:b" ≠ some ⟨[.error "aerror:b"], []⟩ := by
  refine ⟨rfl, ?_⟩
  intro h
  rw [show evaluateProgram 1 ⟨[], []⟩ "error:aerror:b" = some ⟨[.error "ab"], []⟩ from rfl] at h
  simp at h

/-- Claim C7 as amended: a token beginning with `error:` pushes an Error
whose code is the token text with EVERY occurrence of `error:` removed
(scanning left to right without overlap) — equivalently, the leading
prefix is removed and removal continues in the suffix; when the suffix
contains no further occurrence, the code is exactly the suffix after the
prefix, as the original claim stated. -/
theorem claim_C7_amended :
    ∀ (fuel : Nat) (st : Executor) (rest : List Char),
      evalToken fuel st (String.mk ('e' :: 'r' :: 'r' :: 'o' :: 'r' :: ':' :: rest)) =
        some (pushStack st
          (.error (String.mk (stripErrOcc ('e' :: 'r' :: 'r' :: 'o' :: 'r' :: ':' :: rest))))) ∧
      stripErrOcc ('e' :: 'r' :: 'r' :: 'o' :: 'r' :: ':' :: rest) = stripErrOcc rest ∧
      (hasErrOcc rest = false →
        stripErrOcc ('e' :: 'r' :: 'r' :: 'o' :: 'r' :: ':' :: rest) = rest) := by
  intro fuel st rest
  have hpfx : hasPfx "error:".data ('e' :: 'r' :: 'r' :: 'o' :: 'r' :: ':' :: rest) = true := by
    rw [show ('e' :: 'r' :: 'r' :: 'o' :: 'r' :: ':' :: rest) = "error:".data ++ rest from rfl]
    exact hasPfx_self_append _ _
  have hstrip : stripErrOcc ('e' :: 'r' :: 'r' :: 'o' :: 'r' :: ':' :: rest) =
      stripErrOcc rest := by
    rw [show ('e' :: 'r' :: 'r' :: 'o' :: 'r' :: ':' :: rest) = "error:".data ++ rest from rfl]
    exact stripErr_prefix rest
  refine ⟨?_, hstrip, ?_⟩
  · have hne1 : String.mk ('e' :: 'r' :: 'r' :: 'o' :: 'r' :: ':' :: rest) ≠ "true" :=
      neOfHead 'e' 't' _ _ (by decide)
    have hne2 : String.mk ('e' :: 'r' :: 'r' :: 'o' :: 'r' :: ':' :: rest) ≠ "false" :=
      neOfHead 'e' 'f' _ _ (by decide)
    simp [evalToken, evalTokenAux,
      parseF64_head 'e' ('r' :: 'r' :: 'o' :: 'r' :: ':' :: rest)
        (by decide) (by decide) (by decide),
      hne1, hne2, hpfx]
  · intro hocc
    rw [hstrip]
    exact stripErr_no_occ rest hocc

/-- Witness for the amended claim C7 at the concrete token `error:xy`. -/
theorem claim_C7_amended_witness :
    evalToken 0 ⟨[], []⟩ (String.mk ('e' :: 'r' :: 'r' :: 'o' :: 'r' :: ':' :: "xy".data)) =
      some (pushStack ⟨[], []⟩
        (.error (String.mk (stripErrOcc ('e' :: 'r' :: 'r' :: 'o' :: 'r' :: ':' :: "xy".data))))) ∧
    stripErrOcc ('e' :: 'r' :: 'r' :: 'o' :: 'r' :: ':' :: "xy".data) = "xy".data := by
  have h := claim_C7_amended 0 ⟨[], []⟩ "xy".data
  exact ⟨h.1, h.2.2 rfl⟩

/-- Claim C8, refuted for stacks of height 0 and 1: `swap` on a short
stack pads with the empty-string default popped from the empty stack, so
`swap swap` on the empty stack leaves TWO empty strings rather than the
original empty stack. -/
theorem claim_C8_counterexample :
    evaluateProgram 1 ⟨[], []⟩ "swap swap" = some ⟨[.string "", .string ""], []⟩ ∧
    evaluateProgram 1 ⟨[], []⟩ "swap swap" ≠ some ⟨[], []⟩ := by
  refine ⟨rfl, ?_⟩
  intro h
  rw [show evaluateProgram 1 ⟨[], []⟩ "swap swap" =
        some ⟨[.string "", .string ""], []⟩ from rfl] at h
  simp at h

/-- Claim C8 as amended: executing `swap` twice in succession restores
the operand stack exactly whenever its height is at least 2 (on heights
0 and 1 the defaulting pops grow the stack instead, as the
counterexample shows). -/
theorem claim_C8_amended :
    ∀ (fuel : Nat) (st : Executor), 2 ≤ st.stack.length →
      (executeCommand fuel st "swap").bind (fun st1 => executeCommand fuel st1 "swap") =
        some st := by
  intro fuel st h
  obtain ⟨stk, mem⟩ := st
  obtain ⟨l2, a, b, rfl⟩ := exists_two_concat stk h
  rw [show l2 ++ [a, b] = (l2 ++ [a]) ++ [b] from by simp]
  rw [executeCommand_swap_eq]
  simp only [popStack_concat]
  rw [show pushStack (pushStack ⟨l2, mem⟩ b) a = ⟨(l2 ++ [b]) ++ [a], mem⟩ from by
    simp [pushStack]]
  rw [show ∀ (x : Executor) (f : Executor → Option Executor), (some x).bind f = f x
      from fun x f => rfl]
  rw [executeCommand_swap_eq]
  simp only [popStack_concat]
  simp [pushStack]

/-- Witness for the amended claim C8 on a concrete stack of height 2. -/
theorem claim_C8_amended_witness :
    (executeCommand 0 ⟨[Ty.number 1, Ty.number 2], []⟩ "swap").bind
      (fun st1 => executeCommand 0 st1 "swap") = some ⟨[Ty.number 1, Ty.number 2], []⟩ :=
  claim_C8_amended 0 ⟨[Ty.number 1, Ty.number 2], []⟩ (by simp)

/-- Claim C9, confirmed: `sort` replaces every element by its
stringification before sorting, so the pushed list consists only of
String values, is lexicographically sorted (by code points, the order
`Vec::<String>::sort` uses), and is a permutation of the stringified
input; sorting the number list `[10 9 2]` yields the STRING list
`[(10) (2) (9)]`, so the original element kinds are not preserved. -/
theorem claim_C9_sort_stringifies :
    (∀ (fuel : Nat) (base : List Ty) (v : Ty) (mem : Env),
        executeCommand fuel ⟨base ++ [v], mem⟩ "sort" =
          some ⟨base ++ [.list ((sortStrings ((getList v).map getString)).map Ty.string)],
                mem⟩) ∧
    (∀ v x : Ty, x ∈ (sortStrings ((getList v).map getString)).map Ty.string →
        ∃ s, x = Ty.string s) ∧
    (∀ v : Ty, (sortStrings ((getList v).map getString)).Pairwise
        (fun a b => charListLe a.data b.data = true)) ∧
    (∀ v : Ty, List.Perm (sortStrings ((getList v).map getString))
        ((getList v).map getString)) ∧
    evaluateProgram 2 ⟨[], []⟩ "[10 9 2] sort" =
      some ⟨[.list [.string "10", .string "2", .string "9"]], []⟩ := by
  refine ⟨?_, ?_, ?_, ?_, rfl⟩
  · intro fuel base v mem
    rw [executeCommand_sort_eq]
    simp only [popStack_concat]
    rfl
  · intro v x hx
    obtain ⟨s, _, hs⟩ := List.mem_map.mp hx
    exact ⟨s, hs.symm⟩
  · intro v; exact sortStrings_sorted _
  · intro v; exact sortStrings_perm _

/-- Witness for claim C9 at concrete inputs. -/
theorem claim_C9_sort_stringifies_witness :
    executeCommand 0 ⟨[Ty.list [Ty.number 10, Ty.number 9, Ty.number 2]], []⟩ "sort" =
      some ⟨[Ty.list [Ty.string "10", Ty.string "2", Ty.string "9"]], []⟩ ∧
    (∃ s, Ty.string "10" = Ty.string s) := by
  constructor
  · have h := claim_C9_sort_stringifies.1 0 [] (Ty.list [Ty.number 10, Ty.number 9, Ty.number 2]) []
    simpa using h
  · refine claim_C9_sort_stringifies.2.1 (Ty.list [Ty.number 10]) (Ty.string "10") ?_
    rw [show (sortStrings ((getList (Ty.list [Ty.number 10])).map getString)).map Ty.string
          = [Ty.string "10"] from rfl]
    exact List.mem_singleton.mpr rfl

/-- Claim C10, refuted as universally stated: after `for` (likewise
`map`/`filter`) completes over a non-empty list, the environment need
NOT contain the iteration variable — the body itself can remove the
binding.  Running `[1] (i) ((i) free) for` ends with an empty
environment, where the claim requires `i ↦ Number 1`. -/
theorem claim_C10_counterexample :
    evaluateProgram 2 ⟨[], []⟩ "[1] (i) ((i) free) for" = some ⟨[], []⟩ ∧
    lookupMem ([] : Env) "i" = none :=
  ⟨rfl, rfl⟩

/-- Claim C10 as amended: `for`, `map` and `filter` create or overwrite
the iteration-variable binding before each body evaluation and never
remove or restore it afterwards; hence whenever each evaluation of the
body preserves that binding (in particular whenever the body does not
rebind or free the variable), after completion over a non-empty list the
environment still maps the iteration variable to the LAST element of the
list — a mutation beyond the commands' documented results. -/
theorem claim_C10_amended :
    ∀ (fuel : Nat) (base l : List Ty) (v body : String) (mem : Env),
      (∀ s s1 : Executor, evaluateProgram fuel s body = some s1 →
          lookupMem s1.memory v = lookupMem s.memory v) →
      l ≠ [] →
      (∀ st1 : Executor,
          executeCommand fuel ⟨base ++ [.list l, .string v, .string body], mem⟩ "for" =
            some st1 → lookupMem st1.memory v = l.getLast?) ∧
      (∀ st1 : Executor,
          executeCommand fuel ⟨base ++ [.list l, .string v, .string body], mem⟩ "map" =
            some st1 → lookupMem st1.memory v = l.getLast?) ∧
      (∀ st1 : Executor,
          executeCommand fuel ⟨base ++ [.list l, .string v, .string body], mem⟩ "filter" =
            some st1 → lookupMem st1.memory v = l.getLast?) := by
  intro fuel base l v body mem hpres hne
  have hsplit : base ++ [Ty.list l, Ty.string v, Ty.string body]
      = ((base ++ [Ty.list l]) ++ [Ty.string v]) ++ [Ty.string body] := by simp
  refine ⟨?_, ?_, ?_⟩
  · intro st1 h
    rw [hsplit, executeCommand_for_eq] at h
    simp only [popStack_concat, getString, getList] at h
    exact forLoop_lastBinding _ v body hpres l hne _ st1 h
  · intro st1 h
    rw [hsplit, executeCommand_map_eq] at h
    simp only [popStack_concat, getString, getList] at h
    cases hm : mapLoop (evaluateProgram fuel) l v body ⟨base, mem⟩ [] with
    | none => rw [hm] at h; cases h
    | some p =>
        obtain ⟨rs, st4⟩ := p
        rw [hm] at h
        have h2 := Option.some.inj h
        have h3 : st4.memory = st1.memory := by rw [← h2]; rfl
        rw [← h3]
        exact mapLoop_lastBinding _ v body hpres l hne _ [] rs st4 hm
  · intro st1 h
    rw [hsplit, executeCommand_filter_eq] at h
    simp only [popStack_concat, getString, getList] at h
    cases hm : filterLoop (evaluateProgram fuel) l v body ⟨base, mem⟩ [] with
    | none => rw [hm] at h; cases h
    | some p =>
        obtain ⟨rs, st4⟩ := p
        rw [hm] at h
        have h2 := Option.some.inj h
        have h3 : st4.memory = st1.memory := by rw [← h2]; rfl
        rw [← h3]
        exact filterLoop_lastBinding _ v body hpres l hne _ [] rs st4 hm

/-- Witness for the amended claim C10: iterating `for` over `[1 2]` with
the empty (binding-preserving) body leaves `i ↦ Number 2`, the last
element. -/
theorem claim_C10_amended_witness :
    lookupMem [("i", Ty.number 2)] "i" = [Ty.number 1, Ty.number 2].getLast? := by
  have hpres : ∀ s s1 : Executor, evaluateProgram 1 s "" = some s1 →
      lookupMem s1.memory "i" = lookupMem s.memory "i" := by
    intro s s1 h
    have h2 : s = s1 := Option.some.inj h
    rw [h2]
  exact (claim_C10_amended 1 [] [Ty.number 1, Ty.number 2] "i" "" [] hpres
    (by simp)).1 ⟨[], [("i", Ty.number 2)]⟩ rfl

end StackLang
